import Mathlib

/-!
Verification of the pynereal two-service bar pipeline.

The definitions below are a shallow embedding of the data-service and
runner-service code (`src/data_service`, `src/runner_service`).  Timestamps are
modelled as `Nat` (milliseconds in the live buffer, seconds in the canonical
file, exactly as in the source); prices and volumes are modelled as `ℚ`
(the source uses Python floats; float narrowing is abstracted away).  The
canonical OHLCV file (pynecore's `OHLCVReader`/`OHLCVWriter`, not part of this
repository's sources) is modelled from the spec as a typed record store:
a list of bars supporting size, read-by-index, seek-to-ts, truncate, append
and overwrite-at-ts.
-/

namespace Pynereal

/-- A bar `[ts, open, high, low, close, volume]` as carried in the live buffer
(`state.live_bars`, ts in ms) and in the canonical file (ts in seconds). -/
structure Bar where
  ts : Nat
  opn : ℚ
  high : ℚ
  low : ℚ
  close : ℚ
  volume : ℚ
deriving DecidableEq, Repr

/-- The data-service shared state relevant to the buffer loops:
`live_bars` and `last_fix_bar_ts` from `state.DataState`. -/
structure DsState where
  bars : List Bar
  lastFixBarTs : Option Nat
deriving DecidableEq, Repr

/-- The synthetic fill bar `[missing_ts, prev_close, prev_close, prev_close,
prev_close, 0.01]` built by `fix_missing_bars_loop`. -/
def mkFillBar (t : Nat) (c : ℚ) : Bar :=
  { ts := t, opn := c, high := c, low := c, close := c, volume := 1 / 100 }

/-- Last bar of the buffer with a dummy default: the source reads `bars[-1]`
only behind a length guard, and uses `bars[-1][0] if bars else 0`. -/
def dsLastBar (s : DsState) : Bar :=
  s.bars.getLastD { ts := 0, opn := 0, high := 0, low := 0, close := 0, volume := 0 }

/-- Open-time of the last buffered bar, `bars[-1][0] if bars else 0`. -/
def dsLastTs (s : DsState) : Nat := (dsLastBar s).ts

/-- One tick of the gap fixer, the `fix_missing_bars_loop` body
(`src/data_service/collector_loop.py`): with the buffer locked, if the buffer
has at least 2 bars and `now_ms >= bars[-1].ts + tf_ms + 200` and no buffered
bar sits at `expected = bars[-1].ts + tf_ms` and `last_fix_bar_ts != expected`,
append the synthetic bar and record `last_fix_bar_ts = expected`.  Returns the
new state and the appended fill timestamp, if any. -/
def gapFixTick (tfMs nowMs : Nat) (s : DsState) : DsState × Option Nat :=
  if s.bars.length < 2 then (s, none)
  else
    let expected := dsLastTs s + tfMs
    if expected + 200 ≤ nowMs ∧ (∀ b ∈ s.bars, b.ts ≠ expected) ∧
        s.lastFixBarTs ≠ some expected then
      ({ bars := s.bars ++ [mkFillBar expected (dsLastBar s).close],
         lastFixBarTs := some expected }, some expected)
    else (s, none)

/-- The full firing condition of a gap-fixer tick, phrased on the pre-state. -/
def gapFixCond (tfMs nowMs : Nat) (s : DsState) : Prop :=
  2 ≤ s.bars.length ∧
  dsLastTs s + tfMs + 200 ≤ nowMs ∧
  (∀ b ∈ s.bars, b.ts ≠ dsLastTs s + tfMs) ∧
  s.lastFixBarTs ≠ some (dsLastTs s + tfMs)

instance (tfMs nowMs : Nat) (s : DsState) : Decidable (gapFixCond tfMs nowMs s) := by
  unfold gapFixCond; infer_instance

/-- The collector's handling of one generated bar inside `watch_trades_loop`:
replace the in-progress bar when `ts == last_ts`, append when `ts > last_ts`,
and otherwise ignore the bar. -/
def collectBar (s : DsState) (b : Bar) : DsState :=
  if b.ts = dsLastTs s then { s with bars := s.bars.dropLast ++ [b] }
  else if dsLastTs s < b.ts then { s with bars := s.bars ++ [b] }
  else s

/-- Rule C's buffer reduction in `file_update_loop`:
`confirmed_bar_and_new_bar = bars[1:]; state.live_bars = confirmed_bar_and_new_bar`. -/
def ruleCTrim (bars : List Bar) : List Bar := bars.drop 1

/-- The file updater's buffer operation: the trim fires only when the buffer
holds at least 3 bars (and the canonical file exists, which is external to the
buffer state). -/
def fileTrim (s : DsState) : DsState :=
  if 3 ≤ s.bars.length then { s with bars := ruleCTrim s.bars } else s

/-- A buffer operation by one of the three data-service loops. -/
inductive DsOp where
  | collect (b : Bar)
  | trim
  | gapFix (nowMs : Nat)
deriving DecidableEq, Repr

/-- One buffer operation under the shared lock; returns the timestamp of the
synthetic fill bar when the gap fixer appends one. -/
def dsStep (tfMs : Nat) (s : DsState) : DsOp → DsState × Option Nat
  | DsOp.collect b => (collectBar s b, none)
  | DsOp.trim => (fileTrim s, none)
  | DsOp.gapFix nowMs => gapFixTick tfMs nowMs s

/-- An interleaved execution of buffer operations, collecting the timestamps
of all synthetic fill bars appended along the way. -/
def dsExec (tfMs : Nat) (s : DsState) : List DsOp → DsState × List Nat
  | [] => (s, [])
  | op :: ops =>
    let r1 := dsStep tfMs s op
    let r2 := dsExec tfMs r1.1 ops
    (r2.1, r1.2.toList ++ r2.2)

lemma dsLastTs_append (s : DsState) (l : List Bar) (b : Bar)
    (h : s.bars = l ++ [b]) : dsLastTs s = b.ts := by
  simp [dsLastTs, dsLastBar, h]

lemma getLastD_cons_cons (a b : Bar) (t : List Bar) (d : Bar) :
    (a :: b :: t).getLastD d = (b :: t).getLastD d := by
  simp [List.getLastD_cons]

lemma dsLastTs_drop_one (s s' : DsState) (h : s'.bars = s.bars.drop 1)
    (hlen : 2 ≤ s.bars.length) : dsLastTs s' = dsLastTs s := by
  match hb : s.bars with
  | [] => rw [hb] at hlen; simp at hlen
  | [a] => rw [hb] at hlen; simp at hlen
  | a :: b :: t =>
    rw [hb] at h
    simp only [dsLastTs, dsLastBar, h, hb, List.drop_one, List.tail_cons]
    rw [getLastD_cons_cons]

/-- The last open-time of the buffer never decreases under any buffer
operation. -/
lemma dsLastTs_mono (tfMs : Nat) (s : DsState) (op : DsOp) :
    dsLastTs s ≤ dsLastTs (dsStep tfMs s op).1 := by
  cases op with
  | collect b =>
    simp only [dsStep, collectBar]
    split
    · next heq =>
      rw [dsLastTs_append { s with bars := s.bars.dropLast ++ [b] } _ b rfl, heq]
    · split
      · next hlt =>
        rw [dsLastTs_append { s with bars := s.bars ++ [b] } _ b rfl]
        exact Nat.le_of_lt hlt
      · exact Nat.le_refl _
  | trim =>
    simp only [dsStep, fileTrim]
    split
    · next hlen =>
      rw [dsLastTs_drop_one s { s with bars := ruleCTrim s.bars } rfl (by omega)]
    · exact Nat.le_refl _
  | gapFix nowMs =>
    simp only [dsStep, gapFixTick]
    split
    · exact Nat.le_refl _
    · split
      · next hc =>
        rw [dsLastTs_append
          { bars := s.bars ++ [mkFillBar (dsLastTs s + tfMs) (dsLastBar s).close],
            lastFixBarTs := some (dsLastTs s + tfMs) } _ _ rfl]
        simp [mkFillBar]
      · exact Nat.le_refl _

/-- When a step emits a fill, the fill is at `last ts + tf`, becomes the new
last open-time, and was absent from the buffer. -/
lemma dsStep_fill_spec (tfMs : Nat) (s : DsState) (op : DsOp) (s' : DsState) (f : Nat)
    (h : dsStep tfMs s op = (s', some f)) :
    f = dsLastTs s + tfMs ∧ dsLastTs s' = f ∧ ∀ b ∈ s.bars, b.ts ≠ f := by
  cases op with
  | collect b => simp [dsStep] at h
  | trim => simp [dsStep] at h
  | gapFix nowMs =>
    simp only [dsStep, gapFixTick] at h
    split at h
    · simp at h
    · split at h
      · next hc =>
        obtain ⟨h1, h2⟩ := Prod.mk.injEq .. ▸ h
        obtain rfl : f = dsLastTs s + tfMs := by
          simpa using h2.symm
        refine ⟨rfl, ?_, hc.2.1⟩
        rw [← h1]
        rw [dsLastTs_append
          { bars := s.bars ++ [mkFillBar (dsLastTs s + tfMs) (dsLastBar s).close],
            lastFixBarTs := some (dsLastTs s + tfMs) } _ _ rfl]
        simp [mkFillBar]
      · simp at h

/-- Fills of an execution are strictly above the initial last open-time and
strictly increasing, provided the timeframe is positive. -/
lemma dsExec_fills_increasing (tfMs : Nat) (htf : 0 < tfMs) :
    ∀ (ops : List DsOp) (s : DsState),
      (∀ f ∈ (dsExec tfMs s ops).2, dsLastTs s < f) ∧
      (dsExec tfMs s ops).2.Pairwise (· < ·) := by
  intro ops
  induction ops with
  | nil => intro s; simp [dsExec]
  | cons op rest ih =>
    intro s
    simp only [dsExec]
    rcases hstep : dsStep tfMs s op with ⟨s₁, fopt⟩
    obtain ⟨ih1, ih2⟩ := ih s₁
    have hmono : dsLastTs s ≤ dsLastTs s₁ := by
      have := dsLastTs_mono tfMs s op
      rw [hstep] at this; exact this
    cases fopt with
    | none =>
      simp only [hstep, Option.toList_none, List.nil_append]
      exact ⟨fun f hf => Nat.lt_of_le_of_lt hmono (ih1 f hf), ih2⟩
    | some f =>
      obtain ⟨hf1, hf2, _⟩ := dsStep_fill_spec tfMs s op s₁ f hstep
      simp only [hstep, Option.toList_some, List.singleton_append]
      constructor
      · intro g hg
        rcases List.mem_cons.mp hg with rfl | hg'
        · omega
        · exact Nat.lt_of_le_of_lt hmono (ih1 g hg')
      · refine List.pairwise_cons.mpr ⟨fun g hg => ?_, ih2⟩
        have := ih1 g hg
        omega

/-- C5: on a gap-fixer tick, if the buffer holds at least 2 bars, the current
time in ms (server time, or local clock on fetch failure) is at least
`bars[-1].ts + tf_ms + 200`, no buffered bar has ts equal to
`expected = bars[-1].ts + tf_ms`, and `last_fix_bar_ts ≠ expected`, then
exactly one synthetic bar `[expected, c, c, c, c, 0.01]` with
`c = bars[-1].close` is appended and `last_fix_bar_ts` is set to `expected`;
under any other condition the tick leaves the state unchanged. -/
theorem c5_gap_fix_tick (tfMs nowMs : Nat) (s : DsState) :
    (gapFixCond tfMs nowMs s →
      gapFixTick tfMs nowMs s =
        ({ bars := s.bars ++ [mkFillBar (dsLastTs s + tfMs) (dsLastBar s).close],
           lastFixBarTs := some (dsLastTs s + tfMs) },
         some (dsLastTs s + tfMs))) ∧
    (¬ gapFixCond tfMs nowMs s → gapFixTick tfMs nowMs s = (s, none)) := by
  constructor
  · rintro ⟨hlen, hnow, hno, hfix⟩
    unfold gapFixTick
    rw [if_neg (by omega), if_pos ⟨hnow, hno, hfix⟩]
  · intro hcond
    unfold gapFixTick
    by_cases hlen : s.bars.length < 2
    · rw [if_pos hlen]
    · rw [if_neg hlen,
        if_neg (fun h => hcond ⟨by omega, h.1, h.2.1, h.2.2⟩)]

/-- Closed instance of C5: a concrete two-bar buffer with a missed 5m boundary
gets exactly the synthetic fill bar appended and `last_fix_bar_ts` recorded. -/
theorem c5_witness :
    gapFixTick 300000 600201
      { bars := [{ ts := 0, opn := 1, high := 2, low := 1, close := 2, volume := 3 },
                 { ts := 300000, opn := 2, high := 3, low := 2, close := 5/2, volume := 4 }],
        lastFixBarTs := none } =
      ({ bars := [{ ts := 0, opn := 1, high := 2, low := 1, close := 2, volume := 3 },
                  { ts := 300000, opn := 2, high := 3, low := 2, close := 5/2, volume := 4 },
                  mkFillBar 600000 (5/2)],
         lastFixBarTs := some 600000 }, some 600000) := by
  have h := (c5_gap_fix_tick 300000 600201
    { bars := [{ ts := 0, opn := 1, high := 2, low := 1, close := 2, volume := 3 },
               { ts := 300000, opn := 2, high := 3, low := 2, close := 5/2, volume := 4 }],
      lastFixBarTs := none }).1 (by decide)
  simpa [dsLastTs, dsLastBar] using h

/-- C6: across any interleaved execution of collector, file-updater and
gap-fixer buffer operations with a positive timeframe, no expected timestamp
is ever filled twice, and a fill's timestamp is never already present in the
buffer at the moment it is appended. -/
theorem c6_gap_fill_idempotent (tfMs : Nat) (s : DsState) (ops : List DsOp)
    (htf : 0 < tfMs) :
    (dsExec tfMs s ops).2.Pairwise (· ≠ ·) ∧
    (∀ (pre : List DsOp) (nowMs : Nat) (post : List DsOp),
      ops = pre ++ DsOp.gapFix nowMs :: post →
      ∀ (s' : DsState) (f : Nat),
        dsStep tfMs (dsExec tfMs s pre).1 (DsOp.gapFix nowMs) = (s', some f) →
        ∀ b ∈ (dsExec tfMs s pre).1.bars, b.ts ≠ f) := by
  constructor
  · exact List.Pairwise.imp (fun h => Nat.ne_of_lt h)
      (dsExec_fills_increasing tfMs htf ops s).2
  · intro pre nowMs post _ s' f hstep
    exact (dsStep_fill_spec tfMs _ _ s' f hstep).2.2

/-- Concrete operation sequence exercising C6: two gap fills interleaved with
a collector append and a file-updater trim. -/
def c6Ops : List DsOp :=
  [DsOp.gapFix 600201,
   DsOp.collect { ts := 900000, opn := 3, high := 3, low := 3, close := 3, volume := 3 },
   DsOp.trim,
   DsOp.gapFix 1200202]

/-- Closed instance of C6 on the concrete sequence `c6Ops`. -/
theorem c6_witness :
    (dsExec 300000
      { bars := [{ ts := 0, opn := 1, high := 1, low := 1, close := 1, volume := 1 },
                 { ts := 300000, opn := 2, high := 2, low := 2, close := 2, volume := 2 }],
        lastFixBarTs := none } c6Ops).2.Pairwise (· ≠ ·) :=
  (c6_gap_fill_idempotent 300000
    { bars := [{ ts := 0, opn := 1, high := 1, low := 1, close := 1, volume := 1 },
               { ts := 300000, opn := 2, high := 2, low := 2, close := 2, volume := 2 }],
      lastFixBarTs := none } c6Ops (by decide)).1

/-- Concrete four-bar buffer for C3: a tick can well see more than 3 bars,
since one collector batch may append several bars between updater polls. -/
def c3Buffer : List Bar :=
  [{ ts := 0, opn := 1, high := 1, low := 1, close := 1, volume := 1 },
   { ts := 300000, opn := 2, high := 2, low := 2, close := 2, volume := 2 },
   { ts := 600000, opn := 3, high := 3, low := 3, close := 3, volume := 3 },
   { ts := 900000, opn := 4, high := 4, low := 4, close := 4, volume := 4 }]

/-- C3 counterexample: on a buffer of 4 bars (n ≥ 3), Rule C's reduction
`bars[1:]` keeps 3 bars, not "exactly its last two bars" as claimed. -/
theorem c3_counterexample :
    3 ≤ c3Buffer.length ∧ (ruleCTrim c3Buffer).length ≠ 2 := by decide

/-- C3 (amended): on a tick with n ≥ 3 buffered bars and an existing file,
the buffer is reduced to all bars but the first (its last n − 1 bars), and the
whole reduced list is what Rule C passes on; only when n = 3 is the result
exactly the last-two ⟨confirmed, new⟩ pair. -/
theorem c3_trim_keeps_all_but_first (bars : List Bar) (h : 3 ≤ bars.length) :
    ruleCTrim bars = bars.tail ∧
    (ruleCTrim bars).length = bars.length - 1 ∧
    (bars.length = 3 → ∀ b1 b2, bars[1]? = some b1 → bars[2]? = some b2 →
      ruleCTrim bars = [b1, b2]) := by
  refine ⟨by simp [ruleCTrim], by simp [ruleCTrim], ?_⟩
  intro h3 b1 b2 h1 h2
  obtain ⟨x, y, z, rfl⟩ := List.length_eq_three.mp h3
  simp at h1 h2
  simp [ruleCTrim, h1, h2]

/-- Closed instance of the amended C3 on a three-bar buffer. -/
theorem c3_witness :
    ruleCTrim [{ ts := 0, opn := 1, high := 1, low := 1, close := 1, volume := 1 },
               { ts := 300000, opn := 2, high := 2, low := 2, close := 2, volume := 2 },
               { ts := 600000, opn := 3, high := 3, low := 3, close := 3, volume := 3 }] =
      [{ ts := 300000, opn := 2, high := 2, low := 2, close := 2, volume := 2 },
       { ts := 600000, opn := 3, high := 3, low := 3, close := 3, volume := 3 }] := by
  have h := (c3_trim_keeps_all_but_first
    [{ ts := 0, opn := 1, high := 1, low := 1, close := 1, volume := 1 },
     { ts := 300000, opn := 2, high := 2, low := 2, close := 2, volume := 2 },
     { ts := 600000, opn := 3, high := 3, low := 3, close := 3, volume := 3 }]
    (by decide)).2.2 (by decide) _ _ rfl rfl
  exact h

/-- Alignment of every buffered bar's open-time to the timeframe boundary.
The collector's bars come from ccxt's `build_ohlcvc`, which is outside this
repository; the spec's data model states bar ts is aligned to the timeframe
boundary, so collected bars are assumed aligned (hypothesis `hops` below). -/
def barsAligned (tfMs : Nat) (bars : List Bar) : Prop :=
  ∀ b ∈ bars, b.ts % tfMs = 0

/-- Adjacent-pair spacing: each next bar opens at least one timeframe later. -/
def barsSpaced (tfMs : Nat) (bars : List Bar) : Prop :=
  List.Chain' (fun a b => a.ts + tfMs ≤ b.ts) bars

instance (tfMs : Nat) (bars : List Bar) : Decidable (barsAligned tfMs bars) := by
  unfold barsAligned; infer_instance

/-- Executable check for `barsSpaced`, used for concrete evaluations. -/
def barsSpacedB (tfMs : Nat) : List Bar → Bool
  | [] => true
  | [_] => true
  | a :: b :: t => decide (a.ts + tfMs ≤ b.ts) && barsSpacedB tfMs (b :: t)

theorem barsSpacedB_iff (tfMs : Nat) :
    ∀ (l : List Bar), barsSpacedB tfMs l = true ↔ barsSpaced tfMs l
  | [] => by simp [barsSpacedB, barsSpaced]
  | [a] => by simp [barsSpacedB, barsSpaced]
  | a :: b :: t => by
    rw [barsSpaced, List.chain'_cons]
    simp only [barsSpacedB, Bool.and_eq_true, decide_eq_true_eq]
    rw [barsSpacedB_iff tfMs (b :: t)]
    exact Iff.rfl

instance (tfMs : Nat) (bars : List Bar) : Decidable (barsSpaced tfMs bars) :=
  decidable_of_iff _ (barsSpacedB_iff tfMs bars)

lemma aligned_lt_add_le (tfMs a b : Nat) (htf : 0 < tfMs)
    (ha : a % tfMs = 0) (hb : b % tfMs = 0) (hab : a < b) : a + tfMs ≤ b := by
  have h3 : tfMs ∣ b - a :=
    Nat.dvd_sub' (Nat.dvd_of_mod_eq_zero hb) (Nat.dvd_of_mod_eq_zero ha)
  have h4 : tfMs ≤ b - a := Nat.le_of_dvd (by omega) h3
  omega

lemma getLast?_eq_dsLastBar (s : DsState) (h : s.bars ≠ []) :
    s.bars.getLast? = some (dsLastBar s) := by
  obtain ⟨b, hb⟩ := Option.isSome_iff_exists.mp (List.getLast?_isSome.mpr h)
  rw [dsLastBar, List.getLastD_eq_getLast?, hb]
  rfl

lemma dsLastBar_mem (s : DsState) (h : s.bars ≠ []) : dsLastBar s ∈ s.bars := by
  obtain ⟨b, hb⟩ := Option.isSome_iff_exists.mp (List.getLast?_isSome.mpr h)
  have hdb : dsLastBar s = b := by
    simp [dsLastBar, List.getLastD_eq_getLast?, hb]
  rw [hdb]
  exact List.mem_of_mem_getLast? (Option.mem_def.mpr hb)

lemma chain'_concat_getLast (R : Bar → Bar → Prop) (l : List Bar) (b : Bar)
    (hl : List.Chain' R l)
    (hrel : ∀ x, l.getLast? = some x → R x b) :
    List.Chain' R (l ++ [b]) := by
  rw [List.chain'_append]
  refine ⟨hl, List.chain'_singleton b, ?_⟩
  intro x hx y hy
  simp only [List.head?_cons, Option.mem_def, Option.some.injEq] at hy
  rw [← hy]
  exact hrel x (Option.mem_def.mp hx)

lemma dsStep_preserves_inv (tfMs : Nat) (htf : 0 < tfMs) (s : DsState) (op : DsOp)
    (hop : ∀ b, op = DsOp.collect b → b.ts % tfMs = 0)
    (hal : barsAligned tfMs s.bars) (hsp : barsSpaced tfMs s.bars) :
    barsAligned tfMs (dsStep tfMs s op).1.bars ∧
    barsSpaced tfMs (dsStep tfMs s op).1.bars := by
  cases op with
  | collect b =>
    have hbal : b.ts % tfMs = 0 := hop b rfl
    simp only [dsStep, collectBar]
    split
    · next heq =>
      rcases s.bars.eq_nil_or_concat' with hnil | ⟨l', lastB, hsplit⟩
      · rw [hnil]
        refine ⟨?_, ?_⟩
        · intro x hx
          simp at hx
          rw [hx]
          exact hbal
        · simp [barsSpaced]
      · rw [hsplit, List.dropLast_concat]
        have hts : lastB.ts = dsLastTs s := (dsLastTs_append s l' lastB hsplit).symm
        have hsp' := hsp
        rw [barsSpaced, hsplit, List.chain'_append] at hsp'
        refine ⟨?_, ?_⟩
        · intro x hx
          rcases List.mem_append.mp hx with hx | hx
          · exact hal x (by rw [hsplit]; exact List.mem_append_left _ hx)
          · simp at hx; rw [hx]; exact hbal
        · refine chain'_concat_getLast _ _ _ hsp'.1 ?_
          intro x hx
          have hxl := hsp'.2.2 x (Option.mem_def.mpr hx) lastB (by simp)
          omega
    · split
      · next hlt =>
        refine ⟨?_, ?_⟩
        · intro x hx
          rcases List.mem_append.mp hx with hx | hx
          · exact hal x hx
          · simp at hx; rw [hx]; exact hbal
        · refine chain'_concat_getLast _ _ _ hsp ?_
          intro x hx
          have hne : s.bars ≠ [] := by
            intro hnil; rw [hnil] at hx; simp at hx
          rw [getLast?_eq_dsLastBar s hne] at hx
          have hx' : x = dsLastBar s := by
            injection hx with h
            exact h.symm
          rw [hx']
          exact aligned_lt_add_le tfMs _ _ htf
            (hal _ (dsLastBar_mem s hne)) hbal hlt
      · exact ⟨hal, hsp⟩
  | trim =>
    simp only [dsStep, fileTrim]
    split
    · refine ⟨?_, ?_⟩
      · intro x hx
        exact hal x ((List.drop_sublist 1 s.bars).mem hx)
      · rw [barsSpaced, ruleCTrim, List.drop_one]
        exact List.Chain'.tail hsp
    · exact ⟨hal, hsp⟩
  | gapFix nowMs =>
    simp only [dsStep, gapFixTick]
    split
    · exact ⟨hal, hsp⟩
    · next hlen =>
      split
      · next hc =>
        have hne : s.bars ≠ [] := by
          intro hnil; rw [hnil] at hlen; simp at hlen
        have hlastal : dsLastTs s % tfMs = 0 := hal _ (dsLastBar_mem s hne)
        refine ⟨?_, ?_⟩
        · intro x hx
          rcases List.mem_append.mp hx with hx | hx
          · exact hal x hx
          · simp only [List.mem_singleton] at hx
            rw [hx]
            show (dsLastTs s + tfMs) % tfMs = 0
            rw [Nat.add_mod_right]
            exact hlastal
        · refine chain'_concat_getLast _ _ _ hsp ?_
          intro x hx
          rw [getLast?_eq_dsLastBar s hne] at hx
          have hx' : x = dsLastBar s := by
            injection hx with h
            exact h.symm
          rw [hx']
          simp [mkFillBar, dsLastTs]
      · exact ⟨hal, hsp⟩

lemma dsExec_preserves_inv (tfMs : Nat) (htf : 0 < tfMs) :
    ∀ (ops : List DsOp) (s : DsState),
      (∀ b, DsOp.collect b ∈ ops → b.ts % tfMs = 0) →
      barsAligned tfMs s.bars → barsSpaced tfMs s.bars →
      barsAligned tfMs (dsExec tfMs s ops).1.bars ∧
      barsSpaced tfMs (dsExec tfMs s ops).1.bars := by
  intro ops
  induction ops with
  | nil => intro s _ hal hsp; exact ⟨hal, hsp⟩
  | cons op rest ih =>
    intro s hops hal hsp
    simp only [dsExec]
    have hstep := dsStep_preserves_inv tfMs htf s op
      (fun b hb => hops b (by rw [hb]; exact List.mem_cons_self _ _)) hal hsp
    exact ih (dsStep tfMs s op).1
      (fun b hb => hops b (List.mem_cons_of_mem _ hb)) hstep.1 hstep.2

/-- C9: with a positive timeframe and boundary-aligned collected bars, any
interleaved execution of replace/append, synthetic append and buffer trim
preserves the buffer invariant: bars are strictly ordered by open-time, each
adjacent pair is at least one timeframe apart, and in particular the last two
bars satisfy `buffer[-1].ts ≥ buffer[-2].ts + timeframe_ms`. -/
theorem c9_buffer_invariant (tfMs : Nat) (s : DsState) (ops : List DsOp)
    (htf : 0 < tfMs)
    (hops : ∀ b, DsOp.collect b ∈ ops → b.ts % tfMs = 0)
    (hal : barsAligned tfMs s.bars) (hsp : barsSpaced tfMs s.bars) :
    barsAligned tfMs (dsExec tfMs s ops).1.bars ∧
    barsSpaced tfMs (dsExec tfMs s ops).1.bars ∧
    (dsExec tfMs s ops).1.bars.Pairwise (fun a b => a.ts < b.ts) ∧
    (∀ (l : List Bar) (a b : Bar), (dsExec tfMs s ops).1.bars = l ++ [a, b] →
      a.ts + tfMs ≤ b.ts) := by
  obtain ⟨hal', hsp'⟩ := dsExec_preserves_inv tfMs htf ops s hops hal hsp
  refine ⟨hal', hsp', ?_, ?_⟩
  · haveI : IsTrans Bar (fun a b => a.ts + tfMs ≤ b.ts) :=
      ⟨fun a b c hab hbc => by omega⟩
    have hpw := List.chain'_iff_pairwise.mp hsp'
    exact hpw.imp (fun h => by omega)
  · intro l a b hform
    have hsp'' := hsp'
    rw [barsSpaced, hform, List.chain'_append] at hsp''
    exact (List.chain'_cons.mp hsp''.2.1).1

/-- Concrete operation sequence exercising C9. -/
def c9Ops : List DsOp :=
  [DsOp.collect { ts := 600000, opn := 3, high := 3, low := 3, close := 3, volume := 3 },
   DsOp.gapFix 1200202,
   DsOp.trim]

/-- Closed instance of C9 on the concrete sequence `c9Ops`. -/
theorem c9_witness :
    barsAligned 300000 (dsExec 300000
      { bars := [{ ts := 0, opn := 1, high := 1, low := 1, close := 1, volume := 1 },
                 { ts := 300000, opn := 2, high := 2, low := 2, close := 2, volume := 2 }],
        lastFixBarTs := none } c9Ops).1.bars ∧
    barsSpaced 300000 (dsExec 300000
      { bars := [{ ts := 0, opn := 1, high := 1, low := 1, close := 1, volume := 1 },
                 { ts := 300000, opn := 2, high := 2, low := 2, close := 2, volume := 2 }],
        lastFixBarTs := none } c9Ops).1.bars := by
  have h := c9_buffer_invariant 300000
    { bars := [{ ts := 0, opn := 1, high := 1, low := 1, close := 1, volume := 1 },
               { ts := 300000, opn := 2, high := 2, low := 2, close := 2, volume := 2 }],
      lastFixBarTs := none } c9Ops (by decide)
    (by
      intro b hb
      simp [c9Ops] at hb
      rw [hb]
      rfl)
    (by decide) (by decide)
  exact ⟨h.1, h.2.1⟩

/-- `bar_list_to_ohlcv` in `src/runner_service/main.py`: a live-buffer bar in
ms becomes an OHLCV with ts in seconds (`int(bar[0] / 1000)`); the float32
narrowing of the price fields is the identity in the exact `ℚ` model. -/
def barListToOhlcv (b : Bar) : Bar :=
  { ts := b.ts / 1000, opn := b.opn, high := b.high, low := b.low,
    close := b.close, volume := b.volume }

/-- Observable state of a `ScriptRunner` together with its bar stream:
`last_bar_index`, the script's `pre_run` flag, the unconsumed suffix of the
stream, and a log of the executed steps recording the `pre_run` flag each step
ran under. -/
structure RunnerM where
  lastBarIndex : Int
  preRun : Bool
  stream : List Bar
  stepLog : List Bool
deriving DecidableEq, Repr

/-- `runner.step()`: advance the `run_iter` generator by one bar of the
stream, or return `none` (`StopIteration`) when the stream is exhausted. -/
def stepOnce (r : RunnerM) : Option RunnerM :=
  match r.stream with
  | [] => none
  | _ :: rest => some { r with stream := rest, stepLog := r.stepLog ++ [r.preRun] }

/-- The pre-run loop shape `for _ in range(n): step(); break on None`. -/
def stepLoopN : Nat → RunnerM → RunnerM
  | 0, r => r
  | n + 1, r =>
    match stepOnce r with
    | none => r
    | some r' => stepLoopN n r'

/-- The run_ready loop shape `while True: step(); break on None`; the stream
has been finished, so each step consumes one of its remaining bars. -/
def runLoop (r : RunnerM) : RunnerM :=
  match h : r.stream with
  | [] => r
  | _ :: rest => runLoop { r with stream := rest, stepLog := r.stepLog ++ [r.preRun] }
termination_by r.stream.length
decreasing_by simp [h]

/-- Bars with negative volume in the canonical file, the historic-gap
sentinels counted by `ready_scrip_runner`. -/
def fileGaps (file : List Bar) : Nat :=
  (file.filter (fun b => b.volume < 0)).length

/-- Effective file size in `ready_scrip_runner`: the file's record count,
minus the gap count when it is positive. -/
def effectiveSize (file : List Bar) : Nat :=
  if 0 < fileGaps file then file.length - fileGaps file else file.length

/-- `ready_scrip_runner` (`src/runner_service/main.py`): read the whole file
into the stream and instantiate the strategy with
`last_bar_index = size - 1` where `size` is the effective size. -/
def readyScripRunner (file : List Bar) : RunnerM :=
  { lastBarIndex := (effectiveSize file : Int) - 1,
    preRun := true,
    stream := file,
    stepLog := [] }

/-- The stepping stage of the prerun handler in `main()`:
`size = last_bar_index + 1; prerun_range = size - 1; script.pre_run = True`;
for `prerun_ready_after_history_download` additionally
`prerun_range += 1; script.pre_run = False`; then step `prerun_range` times. -/
def prerunSteps (isAfterDownload : Bool) (r : RunnerM) : RunnerM :=
  let size : Int := r.lastBarIndex + 1
  let baseRange : Int := size - 1
  let r1 := { r with preRun := true }
  let range : Int := if isAfterDownload then baseRange + 1 else baseRange
  let r2 := if isAfterDownload then { r1 with preRun := false } else r1
  stepLoopN range.toNat r2

lemma stepLoopN_spec (n : Nat) :
    ∀ (r : RunnerM), n ≤ r.stream.length →
      (stepLoopN n r).stepLog = r.stepLog ++ List.replicate n r.preRun ∧
      (stepLoopN n r).lastBarIndex = r.lastBarIndex ∧
      (stepLoopN n r).preRun = r.preRun := by
  induction n with
  | zero => intro r _; simp [stepLoopN]
  | succ n ih =>
    intro r hlen
    match hs : r.stream with
    | [] => rw [hs] at hlen; simp at hlen
    | x :: rest =>
      have hstep : stepOnce r =
          some { r with stream := rest, stepLog := r.stepLog ++ [r.preRun] } := by
        rw [stepOnce, hs]
      rw [stepLoopN, hstep]
      have hlen' : n ≤ rest.length := by
        rw [hs] at hlen; simpa using Nat.le_of_succ_le_succ hlen
      obtain ⟨h1, h2, h3⟩ := ih { r with stream := rest, stepLog := r.stepLog ++ [r.preRun] } hlen'
      refine ⟨?_, h2, h3⟩
      rw [h1]
      simp [List.replicate_succ]

lemma effectiveSize_le (file : List Bar) : effectiveSize file ≤ file.length := by
  unfold effectiveSize
  split
  · omega
  · exact Nat.le_refl _

lemma runLoop_lastBarIndex (r : RunnerM) :
    (runLoop r).lastBarIndex = r.lastBarIndex := by
  generalize hn : r.stream.length = n
  induction n generalizing r with
  | zero =>
    unfold runLoop
    split
    · rfl
    · next x rest h => rw [h] at hn; simp at hn
  | succ n ih =>
    unfold runLoop
    split
    · rfl
    · next x rest h =>
      have hr : rest.length = n := by
        rw [h] at hn; simpa using hn
      rw [ih { r with stream := rest, stepLog := r.stepLog ++ [r.preRun] } hr]

/-- C4 counterexample file: three gap-free bars, effective size 3. -/
def c4File : List Bar :=
  [{ ts := 1000, opn := 1, high := 1, low := 1, close := 1, volume := 1 },
   { ts := 1300, opn := 1, high := 1, low := 1, close := 1, volume := 1 },
   { ts := 1600, opn := 1, high := 1, low := 1, close := 1, volume := 1 }]

/-- C4 counterexample: for `prerun_ready_after_history_download` on a 3-bar
gap-free file, the claim prescribes `effective_size - 1 = 2` steps with
`pre_run = true` followed by one step with `pre_run = false`, but the handler
sets `pre_run = False` before the whole loop, so all 3 steps run with
`pre_run = false`. -/
theorem c4_counterexample :
    (prerunSteps true (readyScripRunner c4File)).stepLog = [false, false, false] ∧
    List.replicate (effectiveSize c4File - 1) true ++ [false] = [true, true, false] ∧
    ([false, false, false] : List Bool) ≠ [true, true, false] := by decide

/-- C4 (amended): on a lifecycle event the runner sets
`last_bar_index = effective_size - 1` (effective size = file size minus the
count of negative-volume gap bars) and, for `prerun_ready`, steps the strategy
exactly `effective_size - 1` times with `pre_run = true`; for
`prerun_ready_after_history_download` it steps `effective_size` times in
total, but all of those steps run with `pre_run = false`, the flag being set
once before the loop. -/
theorem c4_prerun_steps (file : List Bar) :
    (readyScripRunner file).lastBarIndex = (effectiveSize file : Int) - 1 ∧
    (prerunSteps false (readyScripRunner file)).stepLog
      = List.replicate (effectiveSize file - 1) true ∧
    (prerunSteps true (readyScripRunner file)).stepLog
      = List.replicate (effectiveSize file) false := by
  refine ⟨rfl, ?_, ?_⟩
  · have hrange : (((effectiveSize file : Int) - 1 + 1) - 1).toNat
        = effectiveSize file - 1 := by omega
    have hle : effectiveSize file - 1 ≤ file.length := by
      have := effectiveSize_le file
      omega
    have h := stepLoopN_spec (effectiveSize file - 1)
      { readyScripRunner file with preRun := true } (by simpa [readyScripRunner] using hle)
    simp only [prerunSteps, Bool.false_eq_true, if_false, readyScripRunner] at h ⊢
    rw [hrange]
    simpa [readyScripRunner] using h.1
  · have hrange : (((effectiveSize file : Int) - 1 + 1) - 1 + 1).toNat
        = effectiveSize file := by omega
    have hle : effectiveSize file ≤ file.length := effectiveSize_le file
    have h := stepLoopN_spec (effectiveSize file)
      { readyScripRunner file with preRun := false } (by simpa [readyScripRunner] using hle)
    simp only [prerunSteps, if_true, readyScripRunner] at h ⊢
    rw [hrange]
    simpa [readyScripRunner] using h.1

/-- The runner-side `RunnerCtx`: the live strategy runner (with its stream)
and the tracked ts of the in-progress bar, in seconds. -/
structure RunCtx where
  runner : RunnerM
  lastNewBarTsSec : Nat
deriving DecidableEq, Repr

/-- The `run_ready` handler in `main()` (`src/runner_service/main.py`),
entered with a live `RunnerCtx`: replace the stream's last bar with the
confirmed bar, append the new bar, finish the stream; increment
`last_bar_index` by 1 exactly when
`(new.ts_sec - last_new_bar_ts_sec) * 1000 == timeframe_ms`, in which case the
strategy is stepped to completion; finally destroy the Run Context
unconditionally (`ctx = None`).  Returns the context after the handler and the
runner state observed at destruction time. -/
def handleRunReady (tfMs : Nat) (ctx : RunCtx) (confirmedBar newBar : Bar) :
    Option RunCtx × RunnerM :=
  let confirmedOhlcv := barListToOhlcv confirmedBar
  let newOhlcv := barListToOhlcv newBar
  let stream1 := (ctx.runner.stream.dropLast ++ [confirmedOhlcv]) ++ [newOhlcv]
  let intervalMs : Int := ((newOhlcv.ts : Int) - (ctx.lastNewBarTsSec : Int)) * 1000
  let incrementedSize : Int := if intervalMs = (tfMs : Int) then 1 else 0
  let r1 := { ctx.runner with stream := stream1 }
  let r2 :=
    if 0 < incrementedSize then
      runLoop { r1 with lastBarIndex := r1.lastBarIndex + incrementedSize, preRun := false }
    else r1
  (none, r2)

/-- C1: for every `run_ready` handled with a live Run Context, the runner
increments `last_bar_index` by exactly 1 when
`(new bar ts in seconds - last_new_bar_ts in seconds) * 1000` equals the
timeframe in ms and does not increment it otherwise, and in both cases the
Run Context is destroyed (set to `none`) before the handler returns. -/
theorem c1_run_ready_increment_and_destroy (tfMs : Nat) (ctx : RunCtx)
    (confirmedBar newBar : Bar) :
    (handleRunReady tfMs ctx confirmedBar newBar).1 = none ∧
    (handleRunReady tfMs ctx confirmedBar newBar).2.lastBarIndex =
      ctx.runner.lastBarIndex +
        (if (((newBar.ts / 1000 : Nat) : Int) - (ctx.lastNewBarTsSec : Int)) * 1000
            = (tfMs : Int) then 1 else 0) := by
  refine ⟨rfl, ?_⟩
  simp only [handleRunReady, barListToOhlcv]
  split
  · rw [if_pos (by norm_num : (0 : Int) < 1), runLoop_lastBarIndex]
  · rw [if_neg (by norm_num : ¬ (0 : Int) < 0)]
    simp

/-- The staged `prerun_ready_after_history_download` event payload
(`state.pending_prerun_event`): the canonical file and toml paths
(`confirmed_bar_and_new_bar` is always `None` for this event). -/
structure PrerunEvent where
  ohlcvPath : String
  tomlPath : String
deriving DecidableEq, Repr

/-- A message delivered to one websocket subscriber: either the pending
prerun event pushed on connect, or any other broadcast lifecycle message. -/
inductive DMsg where
  | pendingPrerun (e : PrerunEvent)
  | otherEvent (tag : Nat)
deriving DecidableEq, Repr

/-- Operations touching the pending event and the subscriber set in
`src/data_service/main.py` and `file_update_loop.py`. -/
inductive WsOp where
  | stagePending (e : PrerunEvent)
  | connect (cid : Nat)
  | disconnect (cid : Nat)
  | ackPrerun
  | emitLifecycle (tag : Nat)
  | otherMsg
deriving DecidableEq, Repr

/-- Data-service state for the pending-event protocol: the optional staged
event (guarded by the state lock) and the connected subscribers. -/
structure WsState where
  pending : Option PrerunEvent
  subs : List Nat
deriving DecidableEq, Repr

/-- One protocol step, returning the new state and the messages delivered
(subscriber id paired with the message):
`stagePending` is the file updater setting `state.pending_prerun_event`;
`connect` is `ws_endpoint` registering the subscriber and immediately sending
the pending event if present (without clearing it);
`ackPrerun` is the `ack_prerun_ready_after_history_download` handler clearing
the pending event; `emitLifecycle` is `emit_event` broadcasting to all
subscribers; `otherMsg` is any other received frame, which leaves the pending
event untouched. -/
def wsStep (s : WsState) : WsOp → WsState × List (Nat × DMsg)
  | WsOp.stagePending e => ({ s with pending := some e }, [])
  | WsOp.connect cid =>
    (({ s with subs := s.subs ++ [cid] }),
      match s.pending with
      | some e => [(cid, DMsg.pendingPrerun e)]
      | none => [])
  | WsOp.disconnect cid => ({ s with subs := s.subs.erase cid }, [])
  | WsOp.ackPrerun => ({ s with pending := none }, [])
  | WsOp.emitLifecycle tag => (s, s.subs.map (fun c => (c, DMsg.otherEvent tag)))
  | WsOp.otherMsg => (s, [])

/-- A run of the protocol, concatenating the delivery log. -/
def wsExec (s : WsState) : List WsOp → WsState × List (Nat × DMsg)
  | [] => (s, [])
  | op :: ops =>
    let r1 := wsStep s op
    let r2 := wsExec r1.1 ops
    (r2.1, r1.2 ++ r2.2)

/-- Messages delivered to one subscriber, in order. -/
def msgsTo (cid : Nat) (log : List (Nat × DMsg)) : List DMsg :=
  (log.filter (fun p => p.1 = cid)).map Prod.snd

lemma wsExec_append (s : WsState) (l1 l2 : List WsOp) :
    wsExec s (l1 ++ l2) =
      ((wsExec (wsExec s l1).1 l2).1,
       (wsExec s l1).2 ++ (wsExec (wsExec s l1).1 l2).2) := by
  induction l1 generalizing s with
  | nil => simp [wsExec]
  | cons op rest ih =>
    simp only [List.cons_append, wsExec, List.append_eq]
    rw [ih (wsStep s op).1]
    simp [List.append_assoc]

lemma msgsTo_append (cid : Nat) (l1 l2 : List (Nat × DMsg)) :
    msgsTo cid (l1 ++ l2) = msgsTo cid l1 ++ msgsTo cid l2 := by
  simp [msgsTo]

/-- C2: (first conjunct) if the pending event is staged and still present
after a run in which subscriber `cid` received nothing, the first message the
connecting subscriber `cid` observes is that pending event, before any other
lifecycle message; (second conjunct) a connect with a staged event delivers
exactly that event to the new subscriber and leaves the event staged, so it is
re-sent to every new subscriber until acknowledged; (third conjunct) the
pending event becomes `none` exactly on an
`ack_prerun_ready_after_history_download` message (or if it was already
`none` and nothing new is staged). -/
theorem c2_pending_event_delivery :
    (∀ (s : WsState) (ops1 : List WsOp) (cid : Nat) (ops2 : List WsOp) (e : PrerunEvent),
      (wsExec s ops1).1.pending = some e →
      msgsTo cid (wsExec s ops1).2 = [] →
      (msgsTo cid (wsExec s (ops1 ++ WsOp.connect cid :: ops2)).2).head?
        = some (DMsg.pendingPrerun e)) ∧
    (∀ (s : WsState) (e : PrerunEvent) (cid : Nat),
      s.pending = some e →
      (wsStep s (WsOp.connect cid)).1.pending = some e ∧
      (wsStep s (WsOp.connect cid)).2 = [(cid, DMsg.pendingPrerun e)]) ∧
    (∀ (s : WsState) (op : WsOp),
      (wsStep s op).1.pending = none ↔
        (op = WsOp.ackPrerun ∨
         (s.pending = none ∧ ∀ e, op ≠ WsOp.stagePending e))) := by
  refine ⟨?_, ?_, ?_⟩
  · intro s ops1 cid ops2 e hpend hquiet
    rw [wsExec_append, msgsTo_append, hquiet, List.nil_append]
    have hconn : wsExec (wsExec s ops1).1 (WsOp.connect cid :: ops2) =
        ((wsExec (wsStep (wsExec s ops1).1 (WsOp.connect cid)).1 ops2).1,
         (wsStep (wsExec s ops1).1 (WsOp.connect cid)).2 ++
           (wsExec (wsStep (wsExec s ops1).1 (WsOp.connect cid)).1 ops2).2) := rfl
    rw [hconn, msgsTo_append]
    simp [wsStep, hpend, msgsTo]
  · intro s e cid hpend
    constructor
    · simp [wsStep]; exact hpend
    · simp [wsStep, hpend]
  · intro s op
    cases op with
    | stagePending e => simp [wsStep]
    | connect cid => simp [wsStep]
    | disconnect cid => simp [wsStep]
    | ackPrerun => simp [wsStep]
    | emitLifecycle tag => simp [wsStep]
    | otherMsg => simp [wsStep]

/-- Closed instance of C2: with the event staged while nobody is connected,
the next subscriber's first observed message is the pending event, even with
lifecycle traffic afterwards, and an ACK clears it. -/
theorem c2_witness :
    (msgsTo 7 (wsExec { pending := none, subs := [] }
        ([WsOp.stagePending { ohlcvPath := "a.ohlcv", tomlPath := "a.toml" }] ++
          WsOp.connect 7 :: [WsOp.emitLifecycle 3, WsOp.ackPrerun])).2).head?
      = some (DMsg.pendingPrerun { ohlcvPath := "a.ohlcv", tomlPath := "a.toml" }) ∧
    (wsStep { pending := none, subs := [] } WsOp.ackPrerun).1.pending = none := by
  constructor
  · exact (c2_pending_event_delivery).1
      { pending := none, subs := [] }
      [WsOp.stagePending { ohlcvPath := "a.ohlcv", tomlPath := "a.toml" }]
      7 [WsOp.emitLifecycle 3, WsOp.ackPrerun]
      { ohlcvPath := "a.ohlcv", tomlPath := "a.toml" }
      (by decide) (by decide)
  · exact ((c2_pending_event_delivery).2.2
      { pending := none, subs := [] } WsOp.ackPrerun).mpr (Or.inl rfl)

/-- `reader.end_timestamp`: ts of the file's last record (0 on an empty file,
which the callers never read). -/
def fileEndTimestamp (file : List Bar) : Nat :=
  match file.getLast? with
  | some b => b.ts
  | none => 0

/-- Open price of the file's last record. -/
def fileLastOpen (file : List Bar) : ℚ :=
  match file.getLast? with
  | some b => b.opn
  | none => 0

/-- Modelled from the spec: `OHLCVWriter.overwrite(timestamp, candle)` of the
typed file store (overwrite-at-ts) replaces the record at the given ts in
place. -/
def overwriteAtTs (file : List Bar) (t : Nat) (candle : Bar) : List Bar :=
  file.map (fun b => if b.ts = t then candle else b)

/-- `fix_last_open_if_needed` (`src/data_service/ohlcv_io.py`): read the last
and second-to-last records; if the last record's open differs from the
previous record's close, overwrite the last record at `end_timestamp` with
open := prev.close (same ts, high, low, close, volume) and return that
corrected open; otherwise return 0.0.  The source reads `size - 1` and
`size - 2` unconditionally, so a file of at least two records is assumed. -/
def fixLastOpenIfNeeded (file : List Bar) : List Bar × ℚ :=
  if file.length < 2 then (file, 0)
  else
    match file.getLast?, file[file.length - 2]? with
    | some lastRec, some prevRec =>
      if lastRec.opn ≠ prevRec.close then
        (overwriteAtTs file lastRec.ts
          { ts := lastRec.ts, opn := prevRec.close, high := lastRec.high,
            low := lastRec.low, close := lastRec.close, volume := lastRec.volume },
         prevRec.close)
      else (file, 0)
    | _, _ => (file, 0)

lemma overwriteAtTs_eq_set (l : List Bar) (c : Bar)
    (hs : l.Pairwise (fun a b => a.ts < b.ts)) (lastB : Bar)
    (hl : l.getLast? = some lastB) :
    overwriteAtTs l lastB.ts c = l.set (l.length - 1) c := by
  induction l with
  | nil => simp at hl
  | cons a t ih =>
    cases t with
    | nil =>
      simp only [List.getLast?_singleton, Option.some.injEq] at hl
      subst hl
      simp [overwriteAtTs]
    | cons b t' =>
      have hl' : (b :: t').getLast? = some lastB := by
        rw [← List.getLast?_cons_cons]
        exact hl
      have hmem : lastB ∈ b :: t' :=
        List.mem_of_mem_getLast? (Option.mem_def.mpr hl')
      have ha : a.ts < lastB.ts := (List.pairwise_cons.mp hs).1 lastB hmem
      have hrec := ih (List.pairwise_cons.mp hs).2 hl'
      simp only [overwriteAtTs, List.map_cons, if_neg (Nat.ne_of_lt ha)] at hrec ⊢
      rw [hrec]
      have hlen : (a :: b :: t').length - 1 = ((b :: t').length - 1) + 1 := by
        simp
      rw [hlen, List.set_cons_succ]

/-- C7: on a canonical file of at least 2 strictly ts-ordered bars with a
positive previous close, if the last bar's open differs from the previous
bar's close then the open-fix overwrites exactly the last bar, changing only
its open to the previous close, and returns that corrected open (which is
positive); if the opens agree the file is unchanged and 0.0 is returned; in
both cases the resulting file's last bar satisfies
open = previous bar's close. -/
theorem c7_fix_last_open (file : List Bar) (prevRec lastRec : Bar)
    (hlen : 2 ≤ file.length)
    (hsorted : file.Pairwise (fun a b => a.ts < b.ts))
    (hprev : file[file.length - 2]? = some prevRec)
    (hlast : file.getLast? = some lastRec)
    (hpos : 0 < prevRec.close) :
    (lastRec.opn ≠ prevRec.close →
      (fixLastOpenIfNeeded file).1 =
        file.set (file.length - 1)
          { ts := lastRec.ts, opn := prevRec.close, high := lastRec.high,
            low := lastRec.low, close := lastRec.close, volume := lastRec.volume } ∧
      (fixLastOpenIfNeeded file).2 = prevRec.close ∧
      0 < (fixLastOpenIfNeeded file).2) ∧
    (lastRec.opn = prevRec.close →
      (fixLastOpenIfNeeded file).1 = file ∧ (fixLastOpenIfNeeded file).2 = 0) ∧
    (∀ last2 prev2,
      (fixLastOpenIfNeeded file).1.getLast? = some last2 →
      (fixLastOpenIfNeeded file).1[(fixLastOpenIfNeeded file).1.length - 2]? = some prev2 →
      last2.opn = prev2.close) := by
  have hker : fixLastOpenIfNeeded file =
      if lastRec.opn ≠ prevRec.close then
        (overwriteAtTs file lastRec.ts
          { ts := lastRec.ts, opn := prevRec.close, high := lastRec.high,
            low := lastRec.low, close := lastRec.close, volume := lastRec.volume },
         prevRec.close)
      else (file, 0) := by
    rw [fixLastOpenIfNeeded, if_neg (by omega), hlast, hprev]
  by_cases hne : lastRec.opn = prevRec.close
  · rw [hker, if_neg (by simpa using hne)]
    refine ⟨fun h => absurd hne h, fun _ => ⟨rfl, rfl⟩, ?_⟩
    intro last2 prev2 h2 h3
    rw [hlast] at h2
    rw [hprev] at h3
    injection h2 with h2
    injection h3 with h3
    rw [← h2, ← h3]
    exact hne
  · rw [hker, if_pos (by simpa using hne),
      overwriteAtTs_eq_set file _ hsorted lastRec hlast]
    refine ⟨fun _ => ⟨rfl, rfl, hpos⟩, fun h => absurd h hne, ?_⟩
    intro last2 prev2 h2 h3
    rw [List.getLast?_eq_getElem?, List.length_set] at h2
    have hx1 : file.length - 1 < file.length := by omega
    rw [List.getElem?_set_self', List.getElem?_eq_getElem hx1] at h2
    simp only [Option.map_some] at h2
    injection h2 with h2
    rw [List.length_set, List.getElem?_set_ne (by omega : file.length - 1 ≠ file.length - 2),
      hprev] at h3
    injection h3 with h3
    rw [← h2, ← h3]
    rfl

/-- Closed instance of C7: a two-bar file whose last open disagrees with the
previous close is patched in place and the corrected open returned. -/
theorem c7_witness :
    (fixLastOpenIfNeeded
        [{ ts := 100, opn := 1, high := 2, low := 1, close := 2, volume := 5 },
         { ts := 400, opn := 3, high := 4, low := 3, close := 4, volume := 6 }]).1 =
      [{ ts := 100, opn := 1, high := 2, low := 1, close := 2, volume := 5 },
       { ts := 400, opn := 2, high := 4, low := 3, close := 4, volume := 6 }] ∧
    (fixLastOpenIfNeeded
        [{ ts := 100, opn := 1, high := 2, low := 1, close := 2, volume := 5 },
         { ts := 400, opn := 3, high := 4, low := 3, close := 4, volume := 6 }]).2 = 2 := by
  have h := (c7_fix_last_open
    [{ ts := 100, opn := 1, high := 2, low := 1, close := 2, volume := 5 },
     { ts := 400, opn := 3, high := 4, low := 3, close := 4, volume := 6 }]
    { ts := 100, opn := 1, high := 2, low := 1, close := 2, volume := 5 }
    { ts := 400, opn := 3, high := 4, low := 3, close := 4, volume := 6 }
    (by decide) (by decide) (by decide) (by decide) (by decide)).1 (by decide)
  exact ⟨by rw [h.1]; decide, h.2.1⟩

/-- One candle write inside `update_ohlcv_data`: convert ts to seconds; if the
candle sits at the entry-captured end timestamp and its open differs from the
entry-captured last open, write the stored open instead; then
`seek_to_timestamp(ts_sec); truncate(); write(...)` — modelled from the spec's
typed store as keeping the records before `ts_sec` and appending the new
record — and accumulate the size delta. -/
def writeCandle (lastTimestamp : Nat) (lastOpen : ℚ) (acc : List Bar × Int)
    (cd : Bar) : List Bar × Int :=
  let f := acc.1
  let tsSec := cd.ts / 1000
  let openPrice := if tsSec = lastTimestamp ∧ cd.opn ≠ lastOpen then lastOpen else cd.opn
  let f' := f.takeWhile (fun b => b.ts < tsSec) ++
    [{ ts := tsSec, opn := openPrice, high := cd.high, low := cd.low,
       close := cd.close, volume := cd.volume }]
  (f', acc.2 + ((f'.length : Int) - (f.length : Int)))

/-- `update_ohlcv_data` (`src/data_service/ohlcv_io.py`): capture the file's
end timestamp and last open price at entry, then write each candle in turn,
returning the rewritten file and the accumulated `incremental_size`. -/
def updateOhlcvData (file : List Bar) (candleDatas : List Bar) : List Bar × Int :=
  candleDatas.foldl (writeCandle (fileEndTimestamp file) (fileLastOpen file)) (file, 0)

lemma find?_split (pre suf : List Bar) (target : Bar) (T : Nat)
    (htar : target.ts = T) (hpre : ∀ x ∈ pre, x.ts < T) :
    (pre ++ target :: suf).find? (fun b => b.ts = T) = some target := by
  induction pre with
  | nil =>
    rw [List.nil_append, List.find?_cons_of_pos _ (by simp [htar])]
  | cons a t ih =>
    have hne : ¬ (a.ts = T) := Nat.ne_of_lt (hpre a (List.mem_cons_self a t))
    rw [List.cons_append, List.find?_cons_of_neg _ (by simpa using hne)]
    exact ih (fun x hx => hpre x (List.mem_cons_of_mem a hx))

lemma writeCandle_keeps_target (T : Nat) (O : ℚ) (target : Bar)
    (htar : target.ts = T) (f : List Bar) (z : Int) (cd : Bar)
    (hcd : T < cd.ts / 1000)
    (pre suf : List Bar) (hsplit : f = pre ++ target :: suf)
    (hpre : ∀ x ∈ pre, x.ts < T) (hsuf : ∀ x ∈ suf, T < x.ts) :
    ∃ pre' suf', (writeCandle T O (f, z) cd).1 = pre' ++ target :: suf' ∧
      (∀ x ∈ pre', x.ts < T) ∧ (∀ x ∈ suf', T < x.ts) := by
  refine ⟨pre, suf.takeWhile (fun b => b.ts < cd.ts / 1000) ++
    [{ ts := cd.ts / 1000,
       opn := if cd.ts / 1000 = T ∧ cd.opn ≠ O then O else cd.opn,
       high := cd.high, low := cd.low, close := cd.close, volume := cd.volume }],
    ?_, hpre, ?_⟩
  · simp only [writeCandle, hsplit]
    rw [List.takeWhile_append_of_pos
      (by
        intro x hx
        have := hpre x hx
        simp only [decide_eq_true_eq]
        omega)]
    rw [List.takeWhile_cons_of_pos (by simp only [decide_eq_true_eq]; omega)]
    simp
  · intro x hx
    rcases List.mem_append.mp hx with hx | hx
    · exact hsuf x ((List.takeWhile_sublist _).mem hx)
    · simp only [List.mem_singleton] at hx
      rw [hx]
      exact hcd

lemma updateFold_keeps_target (T : Nat) (O : ℚ) (target : Bar)
    (htar : target.ts = T) :
    ∀ (rest : List Bar) (f : List Bar) (z : Int),
      (∀ c ∈ rest, T < c.ts / 1000) →
      (∃ pre suf, f = pre ++ target :: suf ∧
        (∀ x ∈ pre, x.ts < T) ∧ (∀ x ∈ suf, T < x.ts)) →
      ∃ pre suf, (rest.foldl (writeCandle T O) (f, z)).1 = pre ++ target :: suf ∧
        (∀ x ∈ pre, x.ts < T) ∧ (∀ x ∈ suf, T < x.ts) := by
  intro rest
  induction rest with
  | nil => intro f z _ h; simpa [List.foldl_nil] using h
  | cons c rest ih =>
    intro f z hrest h
    obtain ⟨pre, suf, hsplit, hpre, hsuf⟩ := h
    obtain ⟨pre', suf', hsplit', hpre', hsuf'⟩ :=
      writeCandle_keeps_target T O target htar f z c
        (hrest c (List.mem_cons_self c rest)) pre suf hsplit hpre hsuf
    simp only [List.foldl_cons]
    have hwc : writeCandle T O (f, z) c =
        ((writeCandle T O (f, z) c).1, (writeCandle T O (f, z) c).2) := rfl
    rw [hwc]
    exact ih (writeCandle T O (f, z) c).1 (writeCandle T O (f, z) c).2
      (fun d hd => hrest d (List.mem_cons_of_mem c hd))
      ⟨pre', suf', hsplit', hpre', hsuf'⟩

/-- C10: in `update_ohlcv_data`, a candle whose ms timestamp converts to the
file's end timestamp at entry and whose open differs from the open stored in
the file's last record at entry is written with the stored open (high, low,
close, volume from the candle); the record at the end timestamp in the final
file carries the preserved open, also after the remaining (later) candles are
written — so the Rule-C rewrite cannot revert a previously corrected open. -/
theorem c10_update_preserves_fixed_open (file : List Bar) (cd : Bar)
    (rest : List Bar)
    (hne : file ≠ [])
    (hts : cd.ts / 1000 = fileEndTimestamp file)
    (hopen : cd.opn ≠ fileLastOpen file)
    (hrest : ∀ c ∈ rest, fileEndTimestamp file < c.ts / 1000) :
    (updateOhlcvData file (cd :: rest)).1.find?
        (fun b => b.ts = fileEndTimestamp file)
      = some { ts := fileEndTimestamp file, opn := fileLastOpen file,
               high := cd.high, low := cd.low, close := cd.close,
               volume := cd.volume } := by
  have hfirst : (writeCandle (fileEndTimestamp file) (fileLastOpen file) (file, 0) cd).1 =
      file.takeWhile (fun b => b.ts < fileEndTimestamp file) ++
        [{ ts := fileEndTimestamp file, opn := fileLastOpen file,
           high := cd.high, low := cd.low, close := cd.close,
           volume := cd.volume }] := by
    simp only [writeCandle, hts]
    rw [if_pos ⟨trivial, hopen⟩]
  obtain ⟨pre, suf, hsplit, hpre, hsuf⟩ :=
    updateFold_keeps_target (fileEndTimestamp file) (fileLastOpen file)
      { ts := fileEndTimestamp file, opn := fileLastOpen file,
        high := cd.high, low := cd.low, close := cd.close, volume := cd.volume }
      rfl rest
      (writeCandle (fileEndTimestamp file) (fileLastOpen file) (file, 0) cd).1
      (writeCandle (fileEndTimestamp file) (fileLastOpen file) (file, 0) cd).2
      hrest
      ⟨file.takeWhile (fun b => b.ts < fileEndTimestamp file), [],
        by rw [hfirst], by
          intro x hx
          have := List.mem_takeWhile_imp hx
          simpa using this,
        by intro x hx; simp at hx⟩
  have hfold : (updateOhlcvData file (cd :: rest)).1 = pre ++
      { ts := fileEndTimestamp file, opn := fileLastOpen file,
        high := cd.high, low := cd.low, close := cd.close,
        volume := cd.volume } :: suf := by
    rw [updateOhlcvData, List.foldl_cons]
    exact hsplit
  rw [hfold]
  exact find?_split pre suf _ _ rfl hpre

/-- Closed instance of C10: with the entry last record ⟨ts 100, open 2⟩ and a
confirmed candle at 100000 ms carrying open 3, the written record keeps open 2
even after a later candle is written. -/
theorem c10_witness :
    (updateOhlcvData
        [{ ts := 100, opn := 2, high := 2, low := 2, close := 2, volume := 2 }]
        [{ ts := 100000, opn := 3, high := 4, low := 3, close := 4, volume := 7 },
         { ts := 400000, opn := 4, high := 5, low := 4, close := 5, volume := 8 }]).1.find?
        (fun b => b.ts = 100)
      = some { ts := 100, opn := 2, high := 4, low := 3, close := 4, volume := 7 } := by
  have h := c10_update_preserves_fixed_open
    [{ ts := 100, opn := 2, high := 2, low := 2, close := 2, volume := 2 }]
    { ts := 100000, opn := 3, high := 4, low := 3, close := 4, volume := 7 }
    [{ ts := 400000, opn := 4, high := 5, low := 4, close := 5, volume := 8 }]
    (by decide) (by decide) (by decide)
    (by
      intro c hc
      simp only [List.mem_singleton] at hc
      rw [hc]
      decide)
  simpa using h

/-- Insertion of a row into a ts-ordered listing; implements the SQL
`ORDER BY ts` result order for one key's rows. -/
def insertByTs (b : Bar) : List Bar → List Bar
  | [] => [b]
  | c :: cs => if b.ts ≤ c.ts then b :: c :: cs else c :: insertByTs b cs

/-- Ordering the rows of one cache partition by ts ascending (the SQL
`SELECT ... ORDER BY ts` of `export_to_ohlcv` and of range scans). -/
def sortByTs (l : List Bar) : List Bar := l.foldr insertByTs []

/-- Range scan of one key's partition, ordered by ts ascending. -/
def rangeScanBars (p : List Bar) : List Bar := sortByTs p

/-- `export_to_ohlcv` (`src/data_service/ohlcv_cache.py`): select the key's
rows ordered by ts and write them to the file opened with `truncate=True`;
the resulting file contents are exactly that ordered listing, regardless of
what the file held before. -/
def exportToOhlcv (p : List Bar) : List Bar := rangeScanBars p

/-- One `upsert_bars` row: insert, or on a ts conflict replace the OHLCV
values (`ON CONFLICT ... DO UPDATE`). -/
def upsertRow (p : List Bar) (b : Bar) : List Bar :=
  if p.any (fun r => r.ts = b.ts) then
    p.map (fun r => if r.ts = b.ts then b else r)
  else p ++ [b]

/-- `import_from_ohlcv`: read the file's records in order and upsert them
into the destination key's partition (batching in chunks of 2000 is
equivalent to row-by-row upserts). -/
def importFromOhlcv (p : List Bar) (file : List Bar) : List Bar :=
  file.foldl upsertRow p

/-- C8 counterexample: exporting a one-bar partition and importing it under a
key that already holds a bar at another timestamp does not reproduce the
source contents — import only upserts, so the pre-existing row survives the
range scan. -/
theorem c8_counterexample :
    rangeScanBars (importFromOhlcv
        [{ ts := 999, opn := 2, high := 2, low := 2, close := 2, volume := 2 }]
        (exportToOhlcv
          [{ ts := 1000, opn := 1, high := 1, low := 1, close := 1, volume := 1 }]))
      ≠ rangeScanBars
          [{ ts := 1000, opn := 1, high := 1, low := 1, close := 1, volume := 1 }] := by
  decide

lemma insertByTs_perm (b : Bar) (l : List Bar) :
    (insertByTs b l).Perm (b :: l) := by
  induction l with
  | nil => simp [insertByTs]
  | cons c cs ih =>
    rw [insertByTs]
    split
    · exact List.Perm.refl _
    · exact ((ih.cons c).trans (List.Perm.swap b c cs))

lemma sortByTs_perm (l : List Bar) : (sortByTs l).Perm l := by
  induction l with
  | nil => simp [sortByTs]
  | cons a t ih =>
    rw [sortByTs, List.foldr_cons]
    exact (insertByTs_perm a _).trans (ih.cons a)

lemma insertByTs_sorted (b : Bar) (l : List Bar)
    (hl : l.Pairwise (fun x y => x.ts ≤ y.ts)) :
    (insertByTs b l).Pairwise (fun x y => x.ts ≤ y.ts) := by
  induction l with
  | nil => simp [insertByTs]
  | cons c cs ih =>
    rw [insertByTs]
    split
    · next hle =>
      refine List.pairwise_cons.mpr ⟨?_, hl⟩
      intro y hy
      rcases List.mem_cons.mp hy with rfl | hy
      · exact hle
      · exact Nat.le_trans hle ((List.pairwise_cons.mp hl).1 y hy)
    · next hgt =>
      have hcb : c.ts ≤ b.ts := Nat.le_of_not_le hgt
      refine List.pairwise_cons.mpr ⟨?_, ih (List.pairwise_cons.mp hl).2⟩
      intro y hy
      have hy' := (insertByTs_perm b cs).mem_iff.mp hy
      rcases List.mem_cons.mp hy' with rfl | hy'
      · exact hcb
      · exact (List.pairwise_cons.mp hl).1 y hy'

lemma sortByTs_sorted (l : List Bar) :
    (sortByTs l).Pairwise (fun x y => x.ts ≤ y.ts) := by
  induction l with
  | nil => simp [sortByTs]
  | cons a t ih =>
    rw [sortByTs, List.foldr_cons]
    exact insertByTs_sorted a _ ih

lemma sortByTs_of_sorted (l : List Bar)
    (hl : l.Pairwise (fun x y => x.ts ≤ y.ts)) : sortByTs l = l := by
  induction l with
  | nil => rfl
  | cons a t ih =>
    rw [sortByTs, List.foldr_cons]
    have ht : sortByTs t = t := ih (List.pairwise_cons.mp hl).2
    rw [show List.foldr insertByTs [] t = sortByTs t from rfl, ht]
    cases t with
    | nil => rfl
    | cons c cs =>
      rw [insertByTs, if_pos ((List.pairwise_cons.mp hl).1 c (List.mem_cons_self c cs))]

lemma foldl_upsertRow_fresh :
    ∀ (file acc : List Bar),
      (∀ b ∈ file, ∀ r ∈ acc, r.ts ≠ b.ts) →
      (file.map Bar.ts).Nodup →
      importFromOhlcv acc file = acc ++ file := by
  intro file
  induction file with
  | nil => intro acc _ _; simp [importFromOhlcv]
  | cons b rest ih =>
    intro acc hfresh hnd
    have hnone : ¬ acc.any (fun r => r.ts = b.ts) = true := by
      simp only [List.any_eq_true, decide_eq_true_eq, not_exists]
      intro r hr
      exact hfresh b (List.mem_cons_self b rest) r hr.1 hr.2
    rw [importFromOhlcv, List.foldl_cons]
    rw [show upsertRow acc b = acc ++ [b] from by rw [upsertRow, if_neg hnone]]
    have hnd' : (rest.map Bar.ts).Nodup := by
      simp only [List.map_cons, List.nodup_cons] at hnd
      exact hnd.2
    have hbts : b.ts ∉ rest.map Bar.ts := by
      simp only [List.map_cons, List.nodup_cons] at hnd
      exact hnd.1
    have hfresh' : ∀ c ∈ rest, ∀ r ∈ acc ++ [b], r.ts ≠ c.ts := by
      intro c hc r hr
      rcases List.mem_append.mp hr with hr | hr
      · exact hfresh c (List.mem_cons_of_mem b hc) r hr
      · simp only [List.mem_singleton] at hr
        rw [hr]
        intro h
        exact hbts (h ▸ List.mem_map_of_mem Bar.ts hc)
    have := ih (acc ++ [b]) hfresh' hnd'
    rw [importFromOhlcv] at this
    rw [this, List.append_assoc, List.singleton_append]

/-- C8 (amended): for any partition contents with the primary-key invariant
(no two rows share a ts), the export writes the bars in strictly ascending ts
order after truncating the target, and importing that file back under a key
whose partition is empty yields contents equal, as an ordered range scan, to
the original key's contents; for a non-empty destination the import is only
an upsert-merge (see the counterexample). -/
theorem c8_round_trip (p : List Bar) (hnd : (p.map Bar.ts).Nodup) :
    (exportToOhlcv p).Pairwise (fun a b => a.ts < b.ts) ∧
    rangeScanBars (importFromOhlcv [] (exportToOhlcv p)) = rangeScanBars p := by
  have hperm : (sortByTs p).Perm p := sortByTs_perm p
  have hnd' : ((sortByTs p).map Bar.ts).Nodup :=
    (hperm.map Bar.ts).nodup_iff.mpr hnd
  have hsorted := sortByTs_sorted p
  have hlt : (sortByTs p).Pairwise (fun a b => a.ts < b.ts) := by
    have hne : (sortByTs p).Pairwise (fun a b => a.ts ≠ b.ts) := by
      have h0 : ((sortByTs p).map Bar.ts).Pairwise (fun a b => a ≠ b) := hnd'
      exact List.pairwise_map.mp h0
    exact (hsorted.and hne).imp (fun h => Nat.lt_of_le_of_ne h.1 h.2)
  refine ⟨hlt, ?_⟩
  have himp : importFromOhlcv [] (exportToOhlcv p) = exportToOhlcv p := by
    have := foldl_upsertRow_fresh (exportToOhlcv p) []
      (by intro b _ r hr; simp at hr) hnd'
    simpa using this
  rw [himp]
  show sortByTs (sortByTs p) = sortByTs p
  exact sortByTs_of_sorted _ hsorted

/-- Closed instance of C8 (amended) on a two-row unsorted partition. -/
theorem c8_witness :
    (exportToOhlcv
        [{ ts := 2000, opn := 1, high := 1, low := 1, close := 1, volume := 1 },
         { ts := 1000, opn := 2, high := 2, low := 2, close := 2, volume := 2 }]).Pairwise
      (fun a b => a.ts < b.ts) ∧
    rangeScanBars (importFromOhlcv []
        (exportToOhlcv
          [{ ts := 2000, opn := 1, high := 1, low := 1, close := 1, volume := 1 },
           { ts := 1000, opn := 2, high := 2, low := 2, close := 2, volume := 2 }]))
      = rangeScanBars
          [{ ts := 2000, opn := 1, high := 1, low := 1, close := 1, volume := 1 },
           { ts := 1000, opn := 2, high := 2, low := 2, close := 2, volume := 2 }] :=
  c8_round_trip
    [{ ts := 2000, opn := 1, high := 1, low := 1, close := 1, volume := 1 },
     { ts := 1000, opn := 2, high := 2, low := 2, close := 2, volume := 2 }]
    (by decide)

end Pynereal
